import Mathlib

/-!
Verification of the link-extraction module `parse_old.py` of pypi-simple.

The module's three functions (`parse_links`, `parse_simple_index`,
`parse_project_page`) operate on the DOM tree produced by Beautiful Soup's
`html.parser` backend and resolve URLs with `urllib.parse.urljoin`.  The
HTML tokenizer itself is an external collaborator, so the embedding starts
from the parsed document tree:

* `Node` / `Forest` model the parse tree; element nodes keep the tag name
  and the attribute list exactly as written in the HTML source.
* The views the parser exposes to `parse_links` are modelled explicitly:
  `html.parser` lower-cases tag and attribute names, Beautiful Soup's tree
  builder collapses duplicate attributes (last value wins, first position
  kept) and splits the values of its `cdata_list_attributes` on whitespace.
* `urljoin` models `urllib.parse.urljoin` for hierarchical http-style URLs
  without query or fragment components, all schemes treated as
  relative-capable.
-/

mutual

inductive Node where
  | text (s : String)
  | elem (tag : String) (attrs : List (String × String)) (children : Forest)

inductive Forest where
  | nil
  | cons (hd : Node) (tl : Forest)

end

mutual

def Node.beq : Node → Node → Bool
  | .text s, .text t => s == t
  | .elem t a c, .elem t' a' c' => t == t' && a == a' && Forest.beq c c'
  | _, _ => false

def Forest.beq : Forest → Forest → Bool
  | .nil, .nil => true
  | .cons n f, .cons n' f' => Node.beq n n' && Forest.beq f f'
  | _, _ => false

end

mutual

theorem node_eq_of_beq : ∀ {a b : Node}, Node.beq a b = true → a = b
  | .text s, .text t, h => by
      simp only [Node.beq] at h
      exact congrArg Node.text (by simpa using h)
  | .text _, .elem _ _ _, h => by simp [Node.beq] at h
  | .elem _ _ _, .text _, h => by simp [Node.beq] at h
  | .elem t a c, .elem t' a' c', h => by
      simp only [Node.beq, Bool.and_eq_true, beq_iff_eq] at h
      obtain ⟨⟨h1, h2⟩, h3⟩ := h
      exact h1 ▸ h2 ▸ (forest_eq_of_beq h3) ▸ rfl

theorem forest_eq_of_beq : ∀ {a b : Forest}, Forest.beq a b = true → a = b
  | .nil, .nil, _ => rfl
  | .nil, .cons _ _, h => by simp [Forest.beq] at h
  | .cons _ _, .nil, h => by simp [Forest.beq] at h
  | .cons n f, .cons n' f', h => by
      simp only [Forest.beq, Bool.and_eq_true] at h
      exact (node_eq_of_beq h.1) ▸ (forest_eq_of_beq h.2) ▸ rfl

end

mutual

theorem node_beq_rfl : ∀ (a : Node), Node.beq a a = true
  | .text s => by simp [Node.beq]
  | .elem t a c => by simp [Node.beq, forest_beq_rfl c]

theorem forest_beq_rfl : ∀ (a : Forest), Forest.beq a a = true
  | .nil => rfl
  | .cons n f => by simp [Forest.beq, node_beq_rfl n, forest_beq_rfl f]

end

instance : DecidableEq Node := fun a b =>
  if h : Node.beq a b = true then isTrue (node_eq_of_beq h)
  else isFalse (fun he => h (he ▸ node_beq_rfl a))

instance : DecidableEq Forest := fun a b =>
  if h : Forest.beq a b = true then isTrue (forest_eq_of_beq h)
  else isFalse (fun he => h (he ▸ forest_beq_rfl a))

/-- ASCII lower-casing of a string, character by character (what
`str.lower()` does on tag and attribute names). -/
def lowerStr (s : String) : String :=
  String.mk (s.toList.map Char.toLower)

/-- The tag name as the parser exposes it: `html.parser` lower-cases
element names while building the tree.  Text nodes have no name. -/
def Node.tagName : Node → Option String
  | .text _ => none
  | .elem t _ _ => some (lowerStr t)

/-- Split a character list at every character satisfying `p` (Python
`str.split(sep)` shape: empty pieces kept). -/
def splitOnPred (p : Char → Bool) : List Char → List (List Char)
  | [] => [[]]
  | c :: cs =>
      if p c then [] :: splitOnPred p cs
      else
        match splitOnPred p cs with
        | [] => [[c]]
        | piece :: rest => (c :: piece) :: rest

/-- Python's `str.split()` with no argument: the maximal whitespace-free
runs of the string.  Beautiful Soup uses the equivalent `\S+` findall to
tokenize multi-valued attribute values. -/
def splitWs (s : String) : List String :=
  ((splitOnPred Char.isWhitespace s.toList).map String.mk).filter (fun t => t ≠ "")

/-- Python `str.strip()`: remove leading and trailing whitespace. -/
def stripStr (s : String) : String :=
  String.mk (((s.toList.dropWhile Char.isWhitespace).reverse.dropWhile Char.isWhitespace).reverse)

/-- Beautiful Soup `HTMLTreeBuilder.cdata_list_attributes`: the table of
attributes the parser treats as whitespace-separated lists, per tag
(`"*"` applies to every tag). -/
def cdata_list_attributes : List (String × List String) :=
  [("*", ["class", "accesskey", "dropzone"]),
   ("a", ["rel", "rev"]),
   ("link", ["rel", "rev"]),
   ("td", ["headers"]),
   ("th", ["headers"]),
   ("form", ["accept-charset"]),
   ("object", ["archive"]),
   ("area", ["rel"]),
   ("icon", ["sizes"]),
   ("iframe", ["sandbox"]),
   ("output", ["for"])]

/-- Whether the parser treats attribute `key` of tag `tag` (both already
lower-cased) as a whitespace-separated list. -/
def isCdataListAttr (tag key : String) : Bool :=
  ((cdata_list_attributes.lookup "*").getD []).contains key ||
  ((cdata_list_attributes.lookup tag).getD []).contains key

/-- Insert `(k, v)` into an association list the way a Python `dict`
assignment does: an existing key keeps its position but gets the new
value, a new key goes to the end. -/
def insertOrReplace : List (String × String) → String → String → List (String × String)
  | [], k, v => [(k, v)]
  | (k', v') :: rest, k, v =>
      if k' = k then (k', v) :: rest else (k', v') :: insertOrReplace rest k v

/-- The attribute `dict` Beautiful Soup's `html.parser` builder constructs
from the attributes as written: names lower-cased (done by `html.parser`
itself), duplicates collapsed with the last value winning. -/
def attrDict (raw : List (String × String)) : List (String × String) :=
  raw.foldl (fun acc kv => insertOrReplace acc (lowerStr kv.1) kv.2) []

/-- A value in a Beautiful Soup attribute `dict`: a plain string, or an
ordered token list for multi-valued attributes. -/
inductive AttrVal where
  | str (s : String)
  | list (l : List String)
  deriving DecidableEq

/-- The attribute mapping Beautiful Soup exposes for an element of tag
`tag` (lower-cased) with source attributes `raw`: the attribute dict with
values of `cdata_list_attributes` entries split on whitespace. -/
def soupAttrs (tag : String) (raw : List (String × String)) : List (String × AttrVal) :=
  (attrDict raw).map (fun kv =>
    (kv.1, if isCdataListAttr tag kv.1 then AttrVal.list (splitWs kv.2) else AttrVal.str kv.2))

/-- Model of `link.attrs`: the attribute mapping of an element node. -/
def Node.attrsView : Node → List (String × AttrVal)
  | .text _ => []
  | .elem t raw _ => soupAttrs (lowerStr t) raw

/-- Model of `tag['href']` before any list-splitting: the string value stored in the
attribute dict under key `href` (`href` is never multi-valued). -/
def Node.rawHref : Node → Option String
  | .text _ => none
  | .elem _ raw _ => (attrDict raw).lookup "href"

/-- The attributes of an element exactly as written in the HTML source. -/
def Node.rawAttrs : Node → List (String × String)
  | .text _ => []
  | .elem _ raw _ => raw

mutual

/-- Model of `tag.strings` restricted to a subtree: the contents of all descendant
text nodes, in document order. -/
def Node.strings : Node → List String
  | .text s => [s]
  | .elem _ _ cs => Forest.strings cs

def Forest.strings : Forest → List String
  | .nil => []
  | .cons n f => Node.strings n ++ Forest.strings f

end

mutual

/-- All strict descendants of a node satisfying `p`, in document
(pre-)order: Beautiful Soup's `find_all` never matches the node it is
called on. -/
def Node.descendantsWith (p : Node → Bool) : Node → List Node
  | .text _ => []
  | .elem _ _ cs => Forest.nodesWith p cs

/-- All nodes of a forest (roots included) satisfying `p`, in document
(pre-)order. -/
def Forest.nodesWith (p : Node → Bool) : Forest → List Node
  | .nil => []
  | .cons n f =>
      (if p n then [n] else []) ++ Node.descendantsWith p n ++ Forest.nodesWith p f

end

mutual

/-- The number of strict descendants of a node satisfying `p`. -/
def Node.countWith (p : Node → Bool) : Node → Nat
  | .text _ => 0
  | .elem _ _ cs => Forest.countWith p cs

/-- The number of nodes of a forest (roots included) satisfying `p`. -/
def Forest.countWith (p : Node → Bool) : Forest → Nat
  | .nil => 0
  | .cons n f =>
      (if p n then 1 else 0) + Node.countWith p n + Forest.countWith p f

end

/-- Model of `soup.find_all(tag, pred)` specialised to a decidable node filter:
all matching descendants in document order. -/
def Node.find_all (soup : Node) (p : Node → Bool) : List Node :=
  Node.descendantsWith p soup

/-- Model of `soup.find(tag, pred)`: the first matching descendant, if any. -/
def Node.find (soup : Node) (p : Node → Bool) : Option Node :=
  (soup.find_all p).head?

/-- The filter of `soup.find('base', href=True)`. -/
def isBaseWithHref (n : Node) : Bool :=
  n.tagName == some "base" && n.rawHref.isSome

/-- The filter of `soup.find_all('a', href=True)`. -/
def isAnchorWithHref (n : Node) : Bool :=
  n.tagName == some "a" && n.rawHref.isSome

/-- Any anchor element, with or without an `href`. -/
def isAnchor (n : Node) : Bool :=
  n.tagName == some "a"

/-! ### Model of `urllib.parse.urljoin`

Restricted to hierarchical URLs without query or fragment components, and
with every scheme treated as relative-capable (`uses_relative` and
`uses_netloc`), as http and https are.  Within that fragment it follows
CPython's `urljoin`/`urlsplit`/`urlunsplit` step by step.

String manipulation is done on the underlying character lists so that
every definition evaluates by kernel reduction. -/

/-- Python `path.split('/')` returning strings. -/
def splitSlash (s : String) : List String :=
  (splitOnPred (fun c => c = '/') s.toList).map String.mk

/-- Python `'/'.join(pieces)`. -/
def joinSlash : List String → String
  | [] => ""
  | [s] => s
  | s :: rest => s ++ "/" ++ joinSlash rest

/-- Whether a string starts with `/`. -/
def startsWithSlash (s : String) : Bool :=
  match s.toList with
  | '/' :: _ => true
  | _ => false

/-- Whether a string starts with `//`. -/
def startsWithSlashSlash (s : String) : Bool :=
  match s.toList with
  | '/' :: '/' :: _ => true
  | _ => false

/-- Characters allowed in a URL scheme after the initial letter. -/
def schemeChar (c : Char) : Bool :=
  c.isAlpha || c.isDigit || c = '+' || c = '-' || c = '.'

/-- Split a character list at its first colon, if any. -/
def splitAtColon : List Char → Option (List Char × List Char)
  | [] => none
  | c :: cs =>
      if c = ':' then some ([], cs)
      else (splitAtColon cs).map (fun p => (c :: p.1, p.2))

/-- The components of a split URL: scheme, network location and path
(`""` standing for an absent component, as in Python). -/
structure SplitUrl where
  scheme : String
  netloc : String
  path : String
  deriving DecidableEq

/-- Model of `urllib.parse.urlsplit(url, default_scheme)` without query/fragment
handling: extract a valid scheme prefix (lower-cased; falling back to the
default), then a `//`-introduced netloc running to the next `/`. -/
def urlsplit (url : String) (default_scheme : String) : SplitUrl :=
  let cs := url.toList
  let p :=
    match splitAtColon cs with
    | none => (default_scheme, cs)
    | some (pre, post) =>
        match pre with
        | [] => (default_scheme, cs)
        | c0 :: _ =>
            if c0.isAlpha && pre.all schemeChar then
              (String.mk (pre.map Char.toLower), post)
            else (default_scheme, cs)
  match p.2 with
  | '/' :: '/' :: r =>
      { scheme := p.1,
        netloc := String.mk (r.takeWhile (fun c => c ≠ '/')),
        path := String.mk (r.dropWhile (fun c => c ≠ '/')) }
  | r => { scheme := p.1, netloc := "", path := String.mk r }

/-- Model of `urllib.parse.urlunsplit` without query/fragment handling. -/
def urlunsplit (u : SplitUrl) : String :=
  let url :=
    if u.netloc ≠ "" ∨ startsWithSlashSlash u.path then
      "//" ++ u.netloc ++
        (if u.path ≠ "" ∧ ¬ startsWithSlash u.path then "/" ++ u.path else u.path)
    else u.path
  if u.scheme ≠ "" then u.scheme ++ ":" ++ url else url

/-- CPython's `segments[1:-1] = filter(None, segments[1:-1])`: drop empty
segments, keeping the first and last entries untouched. -/
def filterMiddle (l : List String) : List String :=
  match l with
  | [] => []
  | x :: xs =>
      match xs.getLast? with
      | none => [x]
      | some last => x :: xs.dropLast.filter (fun s => s ≠ "") ++ [last]

/-- CPython's resolved-path loop: process `..` and `.` segments. -/
def resolveSegments (segments : List String) : List String :=
  let folded := segments.foldl
    (fun acc seg =>
      if seg = ".." then acc.dropLast
      else if seg = "." then acc
      else acc ++ [seg]) []
  if segments.getLast? = some "." || segments.getLast? = some ".." then
    folded ++ [""]
  else folded

/-- Model of `urllib.parse.urljoin(base, url)` on query/fragment-free hierarchical
URLs. -/
def urljoin (base url : String) : String :=
  if base = "" then url
  else if url = "" then base
  else
    let b := urlsplit base ""
    let u := urlsplit url b.scheme
    if u.scheme ≠ b.scheme then url
    else if u.netloc ≠ "" then urlunsplit u
    else if u.path = "" then
      urlunsplit { scheme := u.scheme, netloc := b.netloc, path := b.path }
    else
      let segments :=
        if startsWithSlash u.path then splitSlash u.path
        else
          let base_parts := splitSlash b.path
          let base_parts :=
            if base_parts.getLast? = some "" then base_parts else base_parts.dropLast
          filterMiddle (base_parts ++ splitSlash u.path)
      let joined := joinSlash (resolveSegments segments)
      urlunsplit
        { scheme := u.scheme, netloc := b.netloc,
          path := if joined = "" then "/" else joined }

/-! ### The functions of `parse_old.py`

`parse_links` receives the Beautiful Soup document tree (decoding the
input bytes and tokenizing the HTML are the external parser's concern, so
the embedding starts from the tree the parser produced). -/

/-- Lines 72-77 of `parse_old.py`: the effective base URL after the
`<base href>` lookup has (possibly) overridden the caller-supplied
`base_url`. -/
def effectiveBase (soup : Node) (base_url : Option String) : Option String :=
  match soup.find isBaseWithHref with
  | some base_tag =>
      match base_url with
      | none => some (base_tag.rawHref.getD "")
      | some b => some (urljoin b (base_tag.rawHref.getD ""))
  | none => base_url

/-- Lines 78-84 of `parse_old.py`: the local `basejoin` closure. -/
def basejoin (base_url : Option String) (url : String) : String :=
  match base_url with
  | none => url
  | some b => urljoin b url

/-- The triple yielded for one anchor (lines 86-90): stripped text,
joined URL, attribute mapping. -/
def linkTriple (base_url : Option String) (link : Node) :
    String × String × List (String × AttrVal) :=
  (stripStr (String.join link.strings),
   basejoin base_url (link.rawHref.getD ""),
   link.attrsView)

/-- Embedding of `parse_links` (lines 50-90): the sequence of link triples of the
document, in document order. -/
def parse_links (soup : Node) (base_url : Option String) :
    List (String × String × List (String × AttrVal)) :=
  (soup.find_all isAnchorWithHref).map (linkTriple (effectiveBase soup base_url))

/-- Embedding of `parse_simple_index` (lines 6-23): the `(project name, project URL)`
pairs of an index page. -/
def parse_simple_index (soup : Node) (base_url : Option String) :
    List (String × String) :=
  (parse_links soup base_url).map (fun t => (t.1, t.2.1))

/-- The spec's description of the index adapter (section 4.2), written
from the spec's words: the extractor's triples, each projected to its
`(text, url)` components, order preserved. -/
def indexAdapterSpec (soup : Node) (base_url : Option String) : List (String × String) :=
  (parse_links soup base_url).map (fun t => (t.1, t.2.1))

/-- Modelled from the spec: the `Link` value object of `.classes` (not
under `src/`), an immutable record of text, url and attributes. -/
structure Link where
  text : String
  url : String
  attrs : List (String × AttrVal)
  deriving DecidableEq

/-- Modelled from the spec: `DistributionPackage.from_link` of `.classes`
(not under `src/`) is the external classifier; the spec leaves its
algorithm out of scope, so a package record is modelled as the classifier
inputs it was derived from. -/
structure DistributionPackage where
  link : Link
  hint : Option String
  deriving DecidableEq

/-- Modelled from the spec: the external classifier interface
`classify(link, project_hint) -> PackageRecord`. -/
def DistributionPackage.from_link (link : Link) (project_hint : Option String) :
    DistributionPackage :=
  { link := link, hint := project_hint }

/-- Embedding of `parse_project_page` (lines 25-48): one package record per link
triple, built by the external classifier, materialized as a list. -/
def parse_project_page (soup : Node) (base_url : Option String)
    (project_hint : Option String) : List DistributionPackage :=
  (parse_links soup base_url).map (fun t =>
    DistributionPackage.from_link (Link.mk t.1 t.2.1 t.2.2) project_hint)

/-! ### Concrete sample documents (used in examples and witnesses) -/

/-- Build a forest from a list of nodes. -/
def Forest.ofList : List Node → Forest
  | [] => .nil
  | n :: rest => .cons n (Forest.ofList rest)

/-- A parsed document: Beautiful Soup's root object, whose name
`[document]` never matches an element search. -/
def doc (children : List Node) : Node :=
  .elem "[document]" [] (Forest.ofList children)

/-- The document `<base href="c/"><a href="d"></a>`. -/
def sampleBaseDoc : Node :=
  doc [.elem "base" [("href", "c/")] (Forest.ofList []),
       .elem "a" [("href", "d")] (Forest.ofList [])]

/-- The `<base href="c/">` node of `sampleBaseDoc`. -/
def sampleBaseTag : Node :=
  .elem "base" [("href", "c/")] (Forest.ofList [])

/-- The `<a href="d">` node of `sampleBaseDoc`. -/
def sampleAnchorD : Node :=
  .elem "a" [("href", "d")] (Forest.ofList [])

/-- An index page: `<a href="a">PkgA</a><a href="b">PkgB</a>`. -/
def samplePkgsDoc : Node :=
  doc [.elem "a" [("href", "a")] (Forest.ofList [.text "PkgA"]),
       .elem "a" [("href", "b")] (Forest.ofList [.text "PkgB"])]

/-- An anchor whose descendant text nodes concatenate to
`"  foo \n bar  "`, with the inner `bar` contributed by nested markup. -/
def sampleTextAnchor : Node :=
  .elem "a" [("href", "u")]
    (Forest.ofList [.text "  foo \n ", .elem "b" [] (Forest.ofList [.text "bar"]),
                    .text "  "])

/-- A document holding `sampleTextAnchor`. -/
def sampleTextDoc : Node :=
  doc [sampleTextAnchor]

/-- The attribute mapping Beautiful Soup builds for `sampleAttrsAnchor`
below. -/
def sampleAttrsList : List (String × AttrVal) :=
  [("href", AttrVal.str "u"), ("class", AttrVal.list ["a", "b"]),
   ("data-x", AttrVal.str "1"), ("rel", AttrVal.list ["next", "last"]),
   ("title", AttrVal.str "a b")]

/-- The document `<a HREF="u" class="a b" data-x="1" rel="next last" title="a b">`. -/
def sampleAttrsDoc : Node :=
  doc [.elem "a" [("HREF", "u"), ("class", "a b"), ("data-x", "1"),
                  ("rel", "next last"), ("title", "a b")] (Forest.ofList [])]

/-- The anchor of `sampleAttrsDoc`. -/
def sampleAttrsAnchor : Node :=
  .elem "a" [("HREF", "u"), ("class", "a b"), ("data-x", "1"),
             ("rel", "next last"), ("title", "a b")] (Forest.ofList [])

/-- A document with no anchor elements at all. -/
def sampleNoAnchorDoc : Node :=
  doc [.elem "p" [] (Forest.ofList [.text "hello"]), .text "world"]

/-- A document with one href-less anchor and one anchor carrying `href`. -/
def sampleMixedDoc : Node :=
  doc [.elem "a" [] (Forest.ofList [.text "skipped"]),
       .elem "a" [("href", "x")] (Forest.ofList [.text "kept"])]

example : urljoin "http://a/b/" "c/" = "http://a/b/c/" := by decide
example : urljoin "http://a/b/c/" "d" = "http://a/b/c/d" := by decide
example : urljoin "http://x/y/" "z" = "http://x/y/z" := by decide
example : urljoin "http://a/b/" "http://c/d" = "http://c/d" := by decide
example : urljoin "http://a/b/x" "/z" = "http://a/z" := by decide
example : urljoin "http://a/b/c" "../d" = "http://a/d" := by decide
example : urljoin "http://a/b/" "" = "http://a/b/" := by decide

example :
    parse_links sampleBaseDoc (some "http://a/b/") =
      [("", "http://a/b/c/d", [("href", AttrVal.str "d")])] := by decide

example :
    parse_links sampleBaseDoc none =
      [("", "c/d", [("href", AttrVal.str "d")])] := by decide

example :
    parse_simple_index samplePkgsDoc (some "http://x/") =
      [("PkgA", "http://x/a"), ("PkgB", "http://x/b")] := by decide

example :
    (parse_links sampleTextDoc none).map (fun t => t.1) = ["foo \n bar"] := by
  decide

example :
    parse_links sampleAttrsDoc none =
      [("", "u", [("href", AttrVal.str "u"), ("class", AttrVal.list ["a", "b"]),
                  ("data-x", AttrVal.str "1"), ("rel", AttrVal.list ["next", "last"]),
                  ("title", AttrVal.str "a b")])] := by decide

example : parse_links sampleNoAnchorDoc none = [] := by decide

example :
    (parse_links sampleMixedDoc none).map (fun t => t.1) = ["kept"] := by decide

/-! ### Library lemmas about the embedding -/

mutual

theorem Node.pred_of_mem_descendantsWith {p : Node → Bool} :
    ∀ {m n : Node}, n ∈ Node.descendantsWith p m → p n = true
  | .text _, n, h => by simp [Node.descendantsWith] at h
  | .elem t a cs, n, h =>
      Forest.pred_of_mem_nodesWith (f := cs) (by simpa [Node.descendantsWith] using h)

theorem Forest.pred_of_mem_nodesWith {p : Node → Bool} :
    ∀ {f : Forest} {n : Node}, n ∈ Forest.nodesWith p f → p n = true
  | .nil, n, h => by simp [Forest.nodesWith] at h
  | .cons m f, n, h => by
      rw [Forest.nodesWith] at h
      rcases List.mem_append.mp h with h' | h'
      · rcases List.mem_append.mp h' with h'' | h''
        · by_cases hp : p m
          · simp only [hp, if_true, List.mem_singleton] at h''
            exact h'' ▸ hp
          · simp [hp] at h''
        · exact Node.pred_of_mem_descendantsWith h''
      · exact Forest.pred_of_mem_nodesWith h'

end

mutual

theorem Node.length_descendantsWith (p : Node → Bool) :
    ∀ m : Node, (Node.descendantsWith p m).length = Node.countWith p m
  | .text _ => rfl
  | .elem _ _ cs => by
      rw [Node.descendantsWith, Node.countWith]
      exact Forest.length_nodesWith p cs

theorem Forest.length_nodesWith (p : Node → Bool) :
    ∀ f : Forest, (Forest.nodesWith p f).length = Forest.countWith p f
  | .nil => rfl
  | .cons m f => by
      rw [Forest.nodesWith, Forest.countWith]
      simp only [List.length_append]
      rw [Node.length_descendantsWith p m, Forest.length_nodesWith p f]
      by_cases hp : p m <;> simp [hp]

end

mutual

theorem node_countWith_mono {p q : Node → Bool} (hpq : ∀ n, p n = true → q n = true) :
    ∀ m : Node, Node.countWith p m ≤ Node.countWith q m
  | .text _ => Nat.le_refl 0
  | .elem _ _ cs => forest_countWith_mono hpq cs

theorem forest_countWith_mono {p q : Node → Bool} (hpq : ∀ n, p n = true → q n = true) :
    ∀ f : Forest, Forest.countWith p f ≤ Forest.countWith q f
  | .nil => Nat.le_refl 0
  | .cons m f => by
      rw [Forest.countWith, Forest.countWith]
      have h1 : (if p m then 1 else 0) ≤ (if q m then 1 else 0) := by
        by_cases hp : p m
        · simp [hp, hpq m hp]
        · simp [hp]
      exact Nat.add_le_add (Nat.add_le_add h1 (node_countWith_mono hpq m))
        (forest_countWith_mono hpq f)

end

theorem Node.mem_of_find_eq_some {soup t : Node} {p : Node → Bool}
    (h : soup.find p = some t) : t ∈ soup.find_all p := by
  unfold Node.find at h
  cases hl : soup.find_all p with
  | nil => rw [hl] at h; simp at h
  | cons a l =>
      rw [hl] at h
      simp only [List.head?_cons, Option.some.injEq] at h
      exact h ▸ List.mem_cons_self a l

theorem pred_of_find_eq_some {soup t : Node} {p : Node → Bool}
    (h : soup.find p = some t) : p t = true :=
  Node.pred_of_mem_descendantsWith (Node.mem_of_find_eq_some h)

theorem lookup_map_val (f : String → String → AttrVal) :
    ∀ (l : List (String × String)) (k : String),
      (l.map (fun kv => (kv.1, f kv.1 kv.2))).lookup k = (l.lookup k).map (f k) := by
  intro l k
  induction l with
  | nil => rfl
  | cons kv rest ih =>
      obtain ⟨a, b⟩ := kv
      simp only [List.map_cons, List.lookup_cons]
      cases hk : k == a with
      | true => rw [beq_iff_eq.mp hk]; simp
      | false => simp [ih]

theorem mem_of_lookup_eq_some {β : Type} {l : List (String × β)} {k : String} {v : β}
    (h : l.lookup k = some v) : (k, v) ∈ l := by
  induction l with
  | nil => simp [List.lookup] at h
  | cons kv rest ih =>
      obtain ⟨a, b⟩ := kv
      rw [List.lookup_cons] at h
      cases hk : k == a with
      | true =>
          rw [hk] at h
          simp only [Option.some.injEq] at h
          have hka : k = a := beq_iff_eq.mp hk
          exact hka ▸ h ▸ List.mem_cons_self (k, v) rest
      | false =>
          rw [hk] at h
          exact List.mem_cons_of_mem _ (ih h)

theorem soupAttrs_lookup (tag : String) (raw : List (String × String)) (k : String) :
    (soupAttrs tag raw).lookup k =
      ((attrDict raw).lookup k).map (fun v =>
        if isCdataListAttr tag k then AttrVal.list (splitWs v) else AttrVal.str v) := by
  unfold soupAttrs
  exact lookup_map_val
    (fun k v => if isCdataListAttr tag k then AttrVal.list (splitWs v) else AttrVal.str v)
    (attrDict raw) k

theorem isCdataListAttr_href (tag : String) : isCdataListAttr tag "href" = false := by
  unfold isCdataListAttr
  cases h : cdata_list_attributes.lookup tag with
  | none => rfl
  | some v =>
      have hv := mem_of_lookup_eq_some h
      simp only [cdata_list_attributes, List.mem_cons, Prod.mk.injEq,
        List.not_mem_nil, or_false] at hv
      rcases hv with ⟨_, hv⟩ | ⟨_, hv⟩ | ⟨_, hv⟩ | ⟨_, hv⟩ | ⟨_, hv⟩ | ⟨_, hv⟩ |
        ⟨_, hv⟩ | ⟨_, hv⟩ | ⟨_, hv⟩ | ⟨_, hv⟩ | ⟨_, hv⟩ <;> subst hv <;> rfl

/-- The attribute `href` is never a multi-valued attribute, so its entry in the
attribute mapping is the raw string value. -/
theorem attrsView_lookup_href (n : Node) :
    n.attrsView.lookup "href" = n.rawHref.map AttrVal.str := by
  cases n with
  | text s => rfl
  | elem t raw cs =>
      show (soupAttrs (lowerStr t) raw).lookup "href" = _
      rw [soupAttrs_lookup, isCdataListAttr_href]
      cases h : (attrDict raw).lookup "href" <;> simp [Node.rawHref, h]

theorem mem_keys_insertOrReplace {acc : List (String × String)} {k v : String} :
    ∀ kv ∈ insertOrReplace acc k v, kv.1 = k ∨ ∃ v', (kv.1, v') ∈ acc := by
  induction acc with
  | nil =>
      intro kv hkv
      simp only [insertOrReplace, List.mem_singleton] at hkv
      exact Or.inl (by rw [hkv])
  | cons hd rest ih =>
      intro kv hkv
      obtain ⟨a, b⟩ := hd
      rw [insertOrReplace] at hkv
      by_cases hak : a = k
      · rw [if_pos hak] at hkv
        rcases List.mem_cons.mp hkv with h | h
        · exact Or.inl (by rw [h, hak])
        · exact Or.inr ⟨kv.2, List.mem_cons_of_mem (a, b) h⟩
      · rw [if_neg hak] at hkv
        rcases List.mem_cons.mp hkv with h | h
        · exact Or.inr ⟨b, by rw [h]; exact List.mem_cons_self (a, b) rest⟩
        · rcases ih kv h with h' | ⟨v', h'⟩
          · exact Or.inl h'
          · exact Or.inr ⟨v', List.mem_cons_of_mem (a, b) h'⟩

theorem foldl_attrDict_keys (K : String → Prop) :
    ∀ (raw acc : List (String × String)),
      (∀ kv ∈ acc, K kv.1) → (∀ p ∈ raw, K (lowerStr p.1)) →
      ∀ kv ∈ raw.foldl (fun acc kv => insertOrReplace acc (lowerStr kv.1) kv.2) acc,
        K kv.1 := by
  intro raw
  induction raw with
  | nil => intro acc hacc _ kv hkv; exact hacc kv hkv
  | cons p rest ih =>
      intro acc hacc hraw kv hkv
      rw [List.foldl_cons] at hkv
      refine ih (insertOrReplace acc (lowerStr p.1) p.2) ?_ ?_ kv hkv
      · intro kv' hkv'
        rcases mem_keys_insertOrReplace kv' hkv' with h | ⟨v', h⟩
        · exact h ▸ hraw p (List.mem_cons_self p rest)
        · exact hacc (kv'.1, v') h
      · intro q hq
        exact hraw q (List.mem_cons_of_mem p hq)

/-- Every key of the attribute dict is the lower-casing of one of the
element's source attribute names. -/
theorem attrDict_keys_lowered (raw : List (String × String)) :
    ∀ kv ∈ attrDict raw, ∃ s v, (s, v) ∈ raw ∧ kv.1 = lowerStr s := by
  intro kv hkv
  refine foldl_attrDict_keys (fun x => ∃ s v, (s, v) ∈ raw ∧ x = lowerStr s)
    raw [] (by intro _ h; exact absurd h (List.not_mem_nil _)) ?_ kv hkv
  intro p hp
  exact ⟨p.1, p.2, hp, rfl⟩

theorem lookup_insertOrReplace_self (acc : List (String × String)) (k v : String) :
    (insertOrReplace acc k v).lookup k = some v := by
  induction acc with
  | nil => simp [insertOrReplace, List.lookup]
  | cons hd rest ih =>
      obtain ⟨a, b⟩ := hd
      rw [insertOrReplace]
      by_cases hak : a = k
      · rw [if_pos hak, hak, List.lookup_cons, beq_self_eq_true]
      · rw [if_neg hak, List.lookup_cons]
        have : (k == a) = false := beq_eq_false_iff_ne.mpr (fun h => hak h.symm)
        rw [this]
        exact ih

theorem lookup_insertOrReplace_other (acc : List (String × String)) (k k' v : String)
    (h : k' ≠ k) : (insertOrReplace acc k v).lookup k' = acc.lookup k' := by
  induction acc with
  | nil =>
      simp only [insertOrReplace, List.lookup_cons, List.lookup_nil]
      rw [beq_eq_false_iff_ne.mpr h]
  | cons hd rest ih =>
      obtain ⟨a, b⟩ := hd
      rw [insertOrReplace]
      by_cases hak : a = k
      · rw [if_pos hak, List.lookup_cons, List.lookup_cons]
        subst hak
        rw [beq_eq_false_iff_ne.mpr h]
      · rw [if_neg hak, List.lookup_cons, List.lookup_cons]
        cases hk : k' == a
        · exact ih
        · rfl

theorem foldl_attrDict_lookup_isSome (k : String) :
    ∀ (raw acc : List (String × String)),
      ((∃ p ∈ raw, lowerStr p.1 = k) ∨ (acc.lookup k).isSome = true) →
      ((raw.foldl (fun acc kv => insertOrReplace acc (lowerStr kv.1) kv.2) acc).lookup
        k).isSome = true := by
  intro raw
  induction raw with
  | nil =>
      intro acc h
      rcases h with ⟨p, hp, _⟩ | h
      · exact absurd hp (List.not_mem_nil p)
      · exact h
  | cons p rest ih =>
      intro acc h
      rw [List.foldl_cons]
      by_cases hpk : lowerStr p.1 = k
      · refine ih _ (Or.inr ?_)
        rw [hpk, lookup_insertOrReplace_self]
        rfl
      · refine ih _ ?_
        rcases h with ⟨q, hq, hqk⟩ | h
        · rcases List.mem_cons.mp hq with rfl | hq'
          · exact absurd hqk hpk
          · exact Or.inl ⟨q, hq', hqk⟩
        · refine Or.inr ?_
          rw [lookup_insertOrReplace_other acc (lowerStr p.1) k p.2
            (fun he => hpk he.symm)]
          exact h

/-- Every source attribute of an element is present in the attribute dict
under its lower-cased name. -/
theorem attrDict_lookup_isSome (raw : List (String × String)) :
    ∀ p ∈ raw, ((attrDict raw).lookup (lowerStr p.1)).isSome = true := by
  intro p hp
  exact foldl_attrDict_lookup_isSome (lowerStr p.1) raw [] (Or.inl ⟨p, hp, rfl⟩)

theorem parse_links_getElem (soup : Node) (b : Option String) (i : Nat) :
    (parse_links soup b)[i]? =
      ((soup.find_all isAnchorWithHref)[i]?).map (linkTriple (effectiveBase soup b)) := by
  unfold parse_links
  exact List.getElem?_map _ _ i

theorem linkTriple_of_getElem {soup : Node} {b : Option String} {i : Nat}
    {trip : String × String × List (String × AttrVal)} {link : Node}
    (h1 : (parse_links soup b)[i]? = some trip)
    (h2 : (soup.find_all isAnchorWithHref)[i]? = some link) :
    trip = linkTriple (effectiveBase soup b) link := by
  rw [parse_links_getElem, h2, Option.map_some'] at h1
  exact (Option.some.injEq _ _).mp h1.symm

theorem anchor_of_getElem {soup : Node} {i : Nat} {link : Node}
    (h : (soup.find_all isAnchorWithHref)[i]? = some link) :
    isAnchorWithHref link = true :=
  Node.pred_of_mem_descendantsWith (List.getElem?_mem h)

/-! ### The claims -/

/-- C1: for every document, `parse_links` yields exactly one triple per
anchor element carrying an `href` attribute, in document order (it is the
image of the document-order anchor list); anchors without `href`
contribute no triple, and a document with no anchor elements yields the
empty sequence. -/
theorem parse_links_one_triple_per_anchor (soup : Node) (b : Option String) :
    parse_links soup b =
      (soup.find_all isAnchorWithHref).map (linkTriple (effectiveBase soup b)) ∧
    (parse_links soup b).length = soup.countWith isAnchorWithHref ∧
    (soup.countWith isAnchor = 0 → parse_links soup b = []) := by
  have himp : ∀ n, isAnchorWithHref n = true → isAnchor n = true := by
    intro n hn
    unfold isAnchorWithHref at hn
    exact (Bool.and_eq_true _ _).mp hn |>.1
  have hlen : (parse_links soup b).length = soup.countWith isAnchorWithHref := by
    unfold parse_links
    rw [List.length_map]
    exact Node.length_descendantsWith isAnchorWithHref soup
  refine ⟨rfl, hlen, ?_⟩
  intro h0
  have hle := node_countWith_mono himp soup
  rw [h0, Nat.le_zero] at hle
  have : (parse_links soup b).length = 0 := by rw [hlen, hle]
  exact List.eq_nil_of_length_eq_zero this

/-- Witness for C1 at a document with no anchor elements. -/
theorem parse_links_one_triple_per_anchor_witness :
    Node.countWith isAnchor sampleNoAnchorDoc = 0 ∧
    parse_links sampleNoAnchorDoc none = [] :=
  ⟨by decide,
   (parse_links_one_triple_per_anchor sampleNoAnchorDoc none).2.2 (by decide)⟩

/-- C2: the effective base URL is computed from the first `<base>` element
carrying an `href`: if found and `base_url` was not supplied the declared
href is the effective base; if found and `base_url` was supplied the
effective base is the declared href resolved against `base_url`; if not
found the effective base is the supplied `base_url`.  With supplied
`base_url = "http://a/b/"` and document base href `"c/"` the effective
base is `"http://a/b/c/"`, and an anchor href `"d"` resolves to
`"http://a/b/c/d"`. -/
theorem parse_links_effective_base (soup base_tag : Node) (b h : String) :
    (soup.find isBaseWithHref = some base_tag → base_tag.rawHref = some h →
      effectiveBase soup none = some h ∧
      effectiveBase soup (some b) = some (urljoin b h)) ∧
    (soup.find isBaseWithHref = none →
      ∀ u : Option String, effectiveBase soup u = u) ∧
    (effectiveBase sampleBaseDoc (some "http://a/b/") = some "http://a/b/c/" ∧
     parse_links sampleBaseDoc (some "http://a/b/") =
       [("", "http://a/b/c/d", [("href", AttrVal.str "d")])]) := by
  refine ⟨?_, ?_, by decide, by decide⟩
  · intro hfind hhref
    unfold effectiveBase
    rw [hfind]
    simp [hhref]
  · intro hfind u
    unfold effectiveBase
    rw [hfind]

/-- Witness for C2 at the concrete documents. -/
theorem parse_links_effective_base_witness :
    (effectiveBase sampleBaseDoc none = some "c/" ∧
     effectiveBase sampleBaseDoc (some "http://a/b/") = some (urljoin "http://a/b/" "c/")) ∧
    effectiveBase samplePkgsDoc (some "http://x/") = some "http://x/" :=
  ⟨(parse_links_effective_base sampleBaseDoc sampleBaseTag "http://a/b/" "c/").1
      (by decide) (by decide),
   (parse_links_effective_base samplePkgsDoc sampleBaseTag "" "").2.1
      (by decide) (some "http://x/")⟩

/-- C3: the url component of every yielded triple is the raw `href`
resolved against the effective base when one exists, and the raw `href`
string unchanged when `base_url` is absent and no `<base>` tag exists. -/
theorem parse_links_url_component (soup : Node) (b : Option String) (i : Nat)
    (trip : String × String × List (String × AttrVal))
    (h : (parse_links soup b)[i]? = some trip) :
    ∃ raw : String,
      trip.2.2.lookup "href" = some (AttrVal.str raw) ∧
      trip.2.1 = basejoin (effectiveBase soup b) raw ∧
      (effectiveBase soup b = none → trip.2.1 = raw) := by
  have h2 : ∃ link, (soup.find_all isAnchorWithHref)[i]? = some link := by
    rw [parse_links_getElem] at h
    cases hl : (soup.find_all isAnchorWithHref)[i]? with
    | none => rw [hl] at h; exact absurd h (by simp)
    | some link => exact ⟨link, rfl⟩
  obtain ⟨link, hlink⟩ := h2
  have htrip := linkTriple_of_getElem h hlink
  have hanchor := anchor_of_getElem hlink
  unfold isAnchorWithHref at hanchor
  have hsome : link.rawHref.isSome = true := ((Bool.and_eq_true _ _).mp hanchor).2
  obtain ⟨raw, hraw⟩ := Option.isSome_iff_exists.mp hsome
  refine ⟨raw, ?_, ?_, ?_⟩
  · rw [htrip]
    show (linkTriple (effectiveBase soup b) link).2.2.lookup "href" = _
    unfold linkTriple
    rw [attrsView_lookup_href, hraw]
    rfl
  · rw [htrip]
    unfold linkTriple
    rw [hraw]
    rfl
  · intro hnone
    rw [htrip]
    unfold linkTriple
    rw [hraw, hnone]
    rfl

/-- Witness for C3: with no base anywhere the href comes back verbatim. -/
theorem parse_links_url_component_witness :
    (parse_links sampleMixedDoc none)[0]? = some ("kept", "x", [("href", AttrVal.str "x")]) ∧
    ∃ raw : String,
      ((("kept", "x", [("href", AttrVal.str "x")]) :
          String × String × List (String × AttrVal)).2.2.lookup "href" =
        some (AttrVal.str raw)) ∧
      ("kept", "x", [("href", AttrVal.str "x")]).2.1 =
        basejoin (effectiveBase sampleMixedDoc none) raw ∧
      (effectiveBase sampleMixedDoc none = none →
        ("kept", "x", [("href", AttrVal.str "x")]).2.1 = raw) :=
  ⟨by decide, parse_links_url_component sampleMixedDoc none 0 _ (by decide)⟩

theorem attrsView_keys_lowered (n : Node) :
    ∀ kv ∈ n.attrsView, ∃ s v, (s, v) ∈ n.rawAttrs ∧ kv.1 = lowerStr s := by
  cases n with
  | text s => intro kv hkv; exact absurd hkv (List.not_mem_nil kv)
  | elem t raw cs =>
      intro kv hkv
      have hkv' : kv ∈ (attrDict raw).map (fun kv =>
          (kv.1, if isCdataListAttr (lowerStr t) kv.1 then AttrVal.list (splitWs kv.2)
                 else AttrVal.str kv.2)) := hkv
      obtain ⟨kv', hmem, heq⟩ := List.mem_map.mp hkv'
      obtain ⟨s, v, hsv, hk⟩ := attrDict_keys_lowered raw kv' hmem
      exact ⟨s, v, hsv, by rw [← heq]; exact hk⟩

theorem attrsView_lookup_present (n : Node) :
    ∀ p ∈ n.rawAttrs, (n.attrsView.lookup (lowerStr p.1)).isSome = true := by
  cases n with
  | text s => intro p hp; exact absurd hp (List.not_mem_nil p)
  | elem t raw cs =>
      intro p hp
      show ((soupAttrs (lowerStr t) raw).lookup (lowerStr p.1)).isSome = true
      rw [soupAttrs_lookup]
      cases hl : (attrDict raw).lookup (lowerStr p.1) with
      | none =>
          have := attrDict_lookup_isSome raw p hp
          rw [hl] at this
          exact absurd this (by simp)
      | some v => rfl

/-- C4: the attributes component maps every attribute of the anchor under
a lower-cased key (and every such key comes from an attribute as
written); `class="a b"` is exposed as the ordered token list
`["a", "b"]`, `data-x="1"` as the plain string `"1"`, and the unmodified
`href` value is retrievable under the lowercase key `href`. -/
theorem parse_links_attrs_map (soup : Node) (b : Option String) (i : Nat)
    (trip : String × String × List (String × AttrVal)) (link : Node)
    (h1 : (parse_links soup b)[i]? = some trip)
    (h2 : (soup.find_all isAnchorWithHref)[i]? = some link) :
    (∀ kv ∈ trip.2.2, ∃ s v, (s, v) ∈ link.rawAttrs ∧ kv.1 = lowerStr s) ∧
    (∀ p ∈ link.rawAttrs, (trip.2.2.lookup (lowerStr p.1)).isSome = true) ∧
    trip.2.2.lookup "href" = link.rawHref.map AttrVal.str ∧
    parse_links sampleAttrsDoc none = [("", "u", sampleAttrsList)] := by
  have htrip := linkTriple_of_getElem h1 h2
  have hattrs : trip.2.2 = link.attrsView := by rw [htrip]; rfl
  refine ⟨?_, ?_, ?_, by decide⟩
  · rw [hattrs]; exact attrsView_keys_lowered link
  · intro p hp; rw [hattrs]; exact attrsView_lookup_present link p hp
  · rw [hattrs]; exact attrsView_lookup_href link

/-- Witness for C4 at the concrete anchor. -/
theorem parse_links_attrs_map_witness :
    sampleAttrsList.lookup "href" = sampleAttrsAnchor.rawHref.map AttrVal.str :=
  (parse_links_attrs_map sampleAttrsDoc none 0 ("", "u", sampleAttrsList)
    sampleAttrsAnchor (by decide) (by decide)).2.2.1

/-- C5: the text component equals the concatenation of all descendant
text nodes with leading and trailing whitespace removed and internal
whitespace preserved; descendant text concatenating to
`"  foo \n bar  "` yields `"foo \n bar"`. -/
theorem parse_links_text_component (soup : Node) (b : Option String) (i : Nat)
    (trip : String × String × List (String × AttrVal)) (link : Node)
    (h1 : (parse_links soup b)[i]? = some trip)
    (h2 : (soup.find_all isAnchorWithHref)[i]? = some link) :
    trip.1 = stripStr (String.join link.strings) ∧
    String.join sampleTextAnchor.strings = "  foo \n bar  " ∧
    stripStr "  foo \n bar  " = "foo \n bar" ∧
    (parse_links sampleTextDoc none).map (fun t => t.1) = ["foo \n bar"] := by
  have htrip := linkTriple_of_getElem h1 h2
  exact ⟨by rw [htrip]; rfl, by decide, by decide, by decide⟩

/-- Witness for C5 at the concrete anchor. -/
theorem parse_links_text_component_witness :
    (("foo \n bar", "u", [("href", AttrVal.str "u")]) :
        String × String × List (String × AttrVal)).1 =
      stripStr (String.join sampleTextAnchor.strings) :=
  (parse_links_text_component sampleTextDoc none 0
    ("foo \n bar", "u", [("href", AttrVal.str "u")]) sampleTextAnchor
    (by decide) (by decide)).1

/-- C6: `parse_simple_index` yields exactly the triples of `parse_links`
projected to their first two components, in the same order and of the
same length. -/
theorem parse_simple_index_projection (soup : Node) (b : Option String) :
    parse_simple_index soup b = indexAdapterSpec soup b ∧
    (parse_simple_index soup b).length = (parse_links soup b).length ∧
    (∀ i : Nat, (parse_simple_index soup b)[i]? =
      ((parse_links soup b)[i]?).map (fun t => (t.1, t.2.1))) ∧
    parse_simple_index samplePkgsDoc (some "http://x/") =
      [("PkgA", "http://x/a"), ("PkgB", "http://x/b")] := by
  refine ⟨rfl, List.length_map _ _, ?_, by decide⟩
  intro i
  unfold parse_simple_index
  exact List.getElem?_map _ _ i

/-- C7: `parse_project_page` returns the eagerly materialized list
containing, for each triple of `parse_links` in document order, exactly
the record the external classifier derives from the `Link` built from
that triple and the optional hint; this layer classifies nothing itself. -/
theorem parse_project_page_shim (soup : Node) (b hint : Option String) :
    parse_project_page soup b hint =
      (parse_links soup b).map
        (fun t => DistributionPackage.from_link (Link.mk t.1 t.2.1 t.2.2) hint) ∧
    (parse_project_page soup b hint).length = (parse_links soup b).length ∧
    (∀ i : Nat, (parse_project_page soup b hint)[i]? =
      ((parse_links soup b)[i]?).map
        (fun t => DistributionPackage.from_link (Link.mk t.1 t.2.1 t.2.2) hint)) := by
  refine ⟨rfl, List.length_map _ _, ?_⟩
  intro i
  unfold parse_project_page
  exact List.getElem?_map _ _ i

/-- C8: two invocations of `parse_links` on the same input yield equal
sequences, each independently consumable: dropping a prefix of one
invocation's result reads exactly the element the other invocation holds
at that position.  In the embedding `parse_links` is a pure function of
its arguments, mirroring the absence of shared state across calls. -/
theorem parse_links_invocations_independent (soup : Node) (b : Option String) (n : Nat) :
    parse_links soup b = parse_links soup b ∧
    ((parse_links soup b).drop n).head? = (parse_links soup b)[n]? :=
  ⟨rfl, List.head?_drop (parse_links soup b) n⟩

/-- C9: the `href` lookups inside `parse_links` cannot fail: the `<base>`
element returned by `find` and every anchor returned by `find_all` were
filtered on the presence of `href`, so the attribute is always present
and the missing-key branch is unreachable. -/
theorem parse_links_href_lookup_total (soup : Node) :
    (∀ base_tag : Node, soup.find isBaseWithHref = some base_tag →
      base_tag.rawHref.isSome = true) ∧
    (∀ link ∈ soup.find_all isAnchorWithHref, link.rawHref.isSome = true) := by
  constructor
  · intro base_tag hfind
    have hp := pred_of_find_eq_some hfind
    unfold isBaseWithHref at hp
    exact ((Bool.and_eq_true _ _).mp hp).2
  · intro link hmem
    have hp := Node.pred_of_mem_descendantsWith hmem
    unfold isAnchorWithHref at hp
    exact ((Bool.and_eq_true _ _).mp hp).2

/-- Witness for C9 at a document carrying both a `<base>` and an anchor. -/
theorem parse_links_href_lookup_total_witness :
    (sampleBaseDoc.find isBaseWithHref = some sampleBaseTag ∧
     sampleBaseTag.rawHref.isSome = true) ∧
    (sampleAnchorD ∈ sampleBaseDoc.find_all isAnchorWithHref ∧
     sampleAnchorD.rawHref.isSome = true) :=
  ⟨⟨by decide,
    (parse_links_href_lookup_total sampleBaseDoc).1 sampleBaseTag (by decide)⟩,
   ⟨by decide,
    (parse_links_href_lookup_total sampleBaseDoc).2 sampleAnchorD (by decide)⟩⟩

/-- C10: token splitting is driven by the parser's multi-valued attribute
table for anchors, not by the shape of the value: an attribute of a
yielded anchor is exposed as the ordered token list of its value exactly
when the parser lists it as multi-valued on `a` (so `rel` splits like
`class` does), and as the plain string otherwise (`title="a b"` stays the
string `"a b"`). -/
theorem parse_links_attr_split_by_parser_table (soup : Node) (b : Option String)
    (i : Nat) (trip : String × String × List (String × AttrVal)) (link : Node)
    (k v : String)
    (h1 : (parse_links soup b)[i]? = some trip)
    (h2 : (soup.find_all isAnchorWithHref)[i]? = some link)
    (h3 : (attrDict link.rawAttrs).lookup k = some v) :
    trip.2.2.lookup k =
      some (if isCdataListAttr "a" k then AttrVal.list (splitWs v)
            else AttrVal.str v) ∧
    isCdataListAttr "a" "rel" = true ∧
    isCdataListAttr "a" "title" = false ∧
    (parse_links sampleAttrsDoc none).map (fun t => t.2.2.lookup "rel") =
      [some (AttrVal.list ["next", "last"])] ∧
    (parse_links sampleAttrsDoc none).map (fun t => t.2.2.lookup "title") =
      [some (AttrVal.str "a b")] := by
  have htrip := linkTriple_of_getElem h1 h2
  have hanchor := anchor_of_getElem h2
  refine ⟨?_, by decide, by decide, by decide, by decide⟩
  cases link with
  | text s => simp [isAnchorWithHref, Node.tagName] at hanchor
  | elem t raw cs =>
      have htag : lowerStr t = "a" := by
        unfold isAnchorWithHref at hanchor
        have h5 := ((Bool.and_eq_true _ _).mp hanchor).1
        have h6 : Node.tagName (Node.elem t raw cs) = some "a" := eq_of_beq h5
        unfold Node.tagName at h6
        exact Option.some_inj.mp h6
      have h3' : (attrDict raw).lookup k = some v := h3
      rw [htrip]
      show (soupAttrs (lowerStr t) raw).lookup k = _
      rw [htag, soupAttrs_lookup, h3']
      rfl

/-- Witness for C10: `rel` of the concrete anchor splits into tokens. -/
theorem parse_links_attr_split_by_parser_table_witness :
    sampleAttrsList.lookup "rel" =
      some (if isCdataListAttr "a" "rel" then AttrVal.list (splitWs "next last")
            else AttrVal.str "next last") :=
  (parse_links_attr_split_by_parser_table sampleAttrsDoc none 0
    ("", "u", sampleAttrsList) sampleAttrsAnchor "rel" "next last"
    (by decide) (by decide) (by decide)).1
